import Mathlib

/-!
Verification of the sparse-assembly layer of the `gohighs` repository
(`highs/utils.go`, `highs/model.go`, `highs/solution.go`, with the shared
types of `highs/cgo.go`).

Modelling conventions:
* Go `int` indices are modelled as `Int` (only comparisons and copies are
  performed on them, so no machine-width wraparound can occur).
* Go `float64` values are carried opaquely by every in-scope function: they
  are only copied and compared against literal `0.0`; they are modelled as
  `Int`, which supports exactly those operations.
* Go slices are modelled as `List`; a function returning `(slices..., error)`
  is modelled as a tuple ending in `Option Error`, with `nil` slices on the
  error path modelled as `[]`, exactly as the source returns them.
* `sort.Slice(s, less)` sorts `s` by the strict comparator `less`; a slice is
  sorted for `less` exactly when it is sorted for the total preorder
  `le a b := ¬ less b a`.  `sort.Slice` is documented as unstable, so the
  relative order of equal-key entries after sorting is unspecified; the
  embedding fixes one comparator-correct realisation (`List.insertionSort`
  over that preorder).  Each claim-level theorem below is
  invariant under which comparator-correct realisation is chosen: it either
  restricts to pairwise-distinct keys (where the sorted list is unique), or
  depends only on which keys occur, never on which equal-key entry survives.
  Properties that do depend on the order of equal-key entries are not settled
  against this model.
-/

namespace GoHighs

/-- From `cgo.go`: `type Status int` with `StatusError = -1`, `StatusOK = 0`,
`StatusWarning = 1`. -/
abbrev Status := Int

def StatusError : Status := -1

def StatusOK : Status := 0

def StatusWarning : Status := 1

/-- From `cgo.go`: `Error` carries the failing operation, a status code and a
message. -/
structure Error where
  Op : String
  Stat : Status
  Msg : String
deriving DecidableEq, Repr

/-- From `cgo.go`: `newErrorMsg` builds an `Error` with status `StatusError`. -/
def newErrorMsg (op msg : String) : Error :=
  { Op := op, Stat := StatusError, Msg := msg }

/-- From `cgo.go`: one non-zero matrix entry `(Row, Col, Val)`. -/
structure Nonzero where
  Row : Int
  Col : Int
  Val : Int
deriving DecidableEq, Repr

/-- From `cgo.go`: `type VariableType int` (`Continuous = 0`, `Integer = 1`,
`SemiContinuous = 2`, `SemiInteger = 3`, `ImplicitInteger = 4`). -/
abbrev VariableType := Int

/-- From `cgo.go`: `type ModelStatus int` (iota-numbered statuses). -/
abbrev ModelStatus := Int

/-- From `cgo.go`: `type BasisStatus int` (iota-numbered statuses). -/
abbrev BasisStatus := Int

/-- The error value produced by `nonzerosToCSR` for a negative row or column
index (the spec's `InvalidIndex`). -/
def invalidIndexErr : Error :=
  newErrorMsg "nonzerosToCSR" "negative row or column index"

/-- The error value produced by `nonzerosToCSR` for a below-diagonal entry of
a triangular matrix (the spec's `NotUpperTriangular`). -/
def notUpperTriangularErr : Error :=
  newErrorMsg "nonzerosToCSR" "Hessian must be upper triangular"

/-- The error value produced by `expandSlice` for a non-zero, non-matching
length (the spec's `InconsistentLength`). -/
def inconsistentLengthErr : Error :=
  newErrorMsg "expandSlice" "inconsistent slice length"

/-- The strict comparator passed to `sort.Slice` in `nonzerosToCSR`:
first by `Row`, then by `Col`. -/
def nzLess (a b : Nonzero) : Prop :=
  a.Row < b.Row ∨ (a.Row = b.Row ∧ a.Col < b.Col)

/-- The total preorder induced by `nzLess` (`nzLe a b ↔ ¬ nzLess b a`); the
order realised by `sort.Slice` with that comparator. -/
def nzLe (a b : Nonzero) : Prop :=
  a.Row < b.Row ∨ (a.Row = b.Row ∧ a.Col ≤ b.Col)

instance : DecidableRel nzLess := fun a b =>
  decidable_of_iff (a.Row < b.Row ∨ (a.Row = b.Row ∧ a.Col < b.Col)) Iff.rfl

instance : DecidableRel nzLe := fun a b =>
  decidable_of_iff (a.Row < b.Row ∨ (a.Row = b.Row ∧ a.Col ≤ b.Col)) Iff.rfl

instance : IsTotal Nonzero nzLe :=
  ⟨fun a b => by unfold nzLe; omega⟩

instance : IsTrans Nonzero nzLe :=
  ⟨fun a b c hab hbc => by unfold nzLe at *; omega⟩

/-- Key of a nonzero: the `(Row, Col)` pair that `nonzerosToCSR` sorts and
merges by. -/
def keyOf (n : Nonzero) : Int × Int := (n.Row, n.Col)

/-- Lexicographic non-strict order on keys. -/
def keyLe (k₁ k₂ : Int × Int) : Prop :=
  k₁.1 < k₂.1 ∨ (k₁.1 = k₂.1 ∧ k₁.2 ≤ k₂.2)

/-- Lexicographic strict order on keys. -/
def keyLt (k₁ k₂ : Int × Int) : Prop :=
  k₁.1 < k₂.1 ∨ (k₁.1 = k₂.1 ∧ k₁.2 < k₂.2)

instance : DecidableRel keyLt := fun k₁ k₂ =>
  decidable_of_iff (k₁.1 < k₂.1 ∨ (k₁.1 = k₂.1 ∧ k₁.2 < k₂.2)) Iff.rfl

/-- Strict key order lifted to nonzeros. -/
def nzKeyLt (a b : Nonzero) : Prop := keyLt (keyOf a) (keyOf b)

instance : IsAntisymm Nonzero nzKeyLt :=
  ⟨fun a b hab hba => by unfold nzKeyLt keyLt keyOf at hab hba; omega⟩

/-- The key comparison performed by the merge step of `nonzerosToCSR`
(`filtered[last].Row == n.Row && filtered[last].Col == n.Col`). -/
def keyEqb (a b : Nonzero) : Bool :=
  a.Row == b.Row && a.Col == b.Col

/-- One merge-or-append step of the dedup loop of `nonzerosToCSR`: if the last
retained entry has the same `(Row, Col)` key, its value is overwritten with
`n.Val` (making the retained entry equal to `n`), otherwise `n` is appended. -/
def mergeAppend (filtered : List Nonzero) (n : Nonzero) : List Nonzero :=
  match filtered.getLast? with
  | some prev =>
      if keyEqb prev n then filtered.dropLast ++ [n] else filtered ++ [n]
  | none => [n]

/-- The validate-and-deduplicate loop of `nonzerosToCSR` over the sorted
slice: fails on a negative index, fails on a below-diagonal entry when
`triangular`, and otherwise merges duplicates keeping the last value. -/
def validateDedup (triangular : Bool) (filtered : List Nonzero) :
    List Nonzero → List Nonzero × Option Error
  | [] => (filtered, none)
  | n :: rest =>
      if n.Row < 0 ∨ n.Col < 0 then ([], some invalidIndexErr)
      else if triangular = true ∧ n.Row > n.Col then
        ([], some notUpperTriangularErr)
      else validateDedup triangular (mergeAppend filtered n) rest

/-- The CSR `start` construction of `nonzerosToCSR`: walking the filtered
entries with position `i` and `prevRow`, record position `i` whenever the row
advances. -/
def buildStart (i : Nat) (prevRow : Int) : List Nonzero → List Nat
  | [] => []
  | n :: rest =>
      if n.Row > prevRow then i :: buildStart (i + 1) n.Row rest
      else buildStart (i + 1) prevRow rest

/-- From `utils.go`: `nonzerosToCSR` converts a slice of `Nonzero` to
compressed sparse row form `(start, index, value, err)`.  Empty input returns
three empty slices; otherwise the input is sorted by `(Row, Col)`, validated
and deduplicated, and the CSR arrays are built. -/
def nonzerosToCSR (nz : List Nonzero) (triangular : Bool) :
    List Nat × List Int × List Int × Option Error :=
  if nz = [] then ([], [], [], none)
  else
    let sorted := nz.insertionSort nzLe
    match validateDedup triangular [] sorted with
    | (_, some e) => ([], [], [], some e)
    | (filtered, none) =>
        (buildStart 0 (-1) filtered, filtered.map (·.Col),
          filtered.map (·.Val), none)

/-- From `utils.go`: `expandSlice` returns the slice unchanged when its length
is `n`, a fresh slice of `n` copies of `fillValue` when it is empty, and an
`inconsistent slice length` error otherwise.  The length parameter is a
`Nat` (the Go `int` argument is always a length). -/
def expandSlice (n : Nat) (slice : List Int) (fillValue : Int) :
    List Int × Option Error :=
  if slice.length = n then (slice, none)
  else if slice.length = 0 then (List.replicate n fillValue, none)
  else ([], some inconsistentLengthErr)

/-- The loop body of `maxRowCol`: raise each maximum whenever a larger index
is seen. -/
def maxRowColStep (acc : Int × Int) (n : Nonzero) : Int × Int :=
  (if n.Row > acc.1 then n.Row else acc.1,
   if n.Col > acc.2 then n.Col else acc.2)

/-- From `utils.go`: `maxRowCol` scans the nonzeros, starting both maxima at
`-1` and raising each one whenever a larger index is seen. -/
def maxRowCol (nz : List Nonzero) : Int × Int :=
  nz.foldl maxRowColStep (-1, -1)

/-- From `model.go`: the model-building struct. -/
structure Model where
  Maximize : Bool
  Offset : Int
  ColCosts : List Int
  ColLower : List Int
  ColUpper : List Int
  RowLower : List Int
  RowUpper : List Int
  ConstMatrix : List Nonzero
  Hessian : List Nonzero
  VarTypes : List VariableType
deriving DecidableEq, Repr

/-- The loop body of `AddDenseRow`: `for col, val := range coeffs`, appending
`{row, col, val}` for every non-zero coefficient. -/
def denseRowNonzeros (row : Int) (col : Nat) : List Int → List Nonzero
  | [] => []
  | val :: rest =>
      if val ≠ 0 then
        { Row := row, Col := (col : Int), Val := val } ::
          denseRowNonzeros row (col + 1) rest
      else denseRowNonzeros row (col + 1) rest

/-- From `model.go`: `AddDenseRow` appends one row bound pair and one
`ConstMatrix` entry per non-zero coefficient, with the row index taken from
the length of `RowLower` before the append. -/
def Model.AddDenseRow (m : Model) (lower : Int) (coeffs : List Int)
    (upper : Int) : Model :=
  let row : Int := (m.RowLower.length : Int)
  { m with
    RowLower := m.RowLower ++ [lower]
    RowUpper := m.RowUpper ++ [upper]
    ConstMatrix := m.ConstMatrix ++ denseRowNonzeros row 0 coeffs }

/-- From `solution.go`: the solve result struct. -/
structure Solution where
  Stat : ModelStatus
  ColValues : List Int
  ColDuals : List Int
  RowValues : List Int
  RowDuals : List Int
  ColBasis : List BasisStatus
  RowBasis : List BasisStatus
  Objective : Int
deriving DecidableEq, Repr

/-- From `solution.go`: `Value` returns `ColValues[index]`, or `0` when the
index is out of range. -/
def Solution.Value (s : Solution) (index : Int) : Int :=
  if h : index < 0 ∨ (s.ColValues.length : Int) ≤ index then 0
  else s.ColValues.get ⟨index.toNat, by omega⟩

/-- Forward formulation of the duplicate merge: collapse each run of
consecutive equal-key entries to its last element. -/
def mergeRuns1 (n : Nonzero) : List Nonzero → List Nonzero
  | [] => [n]
  | m :: rest =>
      if keyEqb n m then mergeRuns1 m rest else n :: mergeRuns1 m rest

/-- An entry is rejected by the validation walk of `nonzerosToCSR` when it has
a negative index, or is below the diagonal of a triangular matrix. -/
def badEntry (tri : Bool) (n : Nonzero) : Prop :=
  n.Row < 0 ∨ n.Col < 0 ∨ (tri = true ∧ n.Row > n.Col)

instance (tri : Bool) : DecidablePred (badEntry tri) := fun n =>
  decidable_of_iff (n.Row < 0 ∨ n.Col < 0 ∨ (tri = true ∧ n.Row > n.Col))
    Iff.rfl

/-! ### Basic facts about the comparators -/

theorem nzLe_iff_not_nzLess (a b : Nonzero) : nzLe a b ↔ ¬ nzLess b a := by
  unfold nzLe nzLess
  constructor
  · rintro (h | ⟨h₁, h₂⟩) <;> rintro (g | ⟨g₁, g₂⟩) <;> omega
  · intro h
    by_cases hr : a.Row < b.Row
    · exact Or.inl hr
    · refine Or.inr ?_
      unfold nzLess at h
      push_neg at h
      obtain ⟨h₁, h₂⟩ := h
      omega

theorem keyEqb_iff (a b : Nonzero) : keyEqb a b = true ↔ keyOf a = keyOf b := by
  unfold keyEqb keyOf
  simp [Prod.ext_iff]

/-! ### The dedup loop as a forward recursion -/

theorem foldl_mergeAppend (l : List Nonzero) :
    ∀ (acc : List Nonzero) (n : Nonzero),
      List.foldl mergeAppend (acc ++ [n]) l = acc ++ mergeRuns1 n l := by
  induction l with
  | nil => intro acc n; rfl
  | cons m rest ih =>
    intro acc n
    by_cases hk : keyEqb n m = true
    · have hm : mergeAppend (acc ++ [n]) m = acc ++ [m] := by
        unfold mergeAppend
        rw [List.getLast?_concat]
        simp [hk, List.dropLast_concat]
      calc List.foldl mergeAppend (acc ++ [n]) (m :: rest)
          = List.foldl mergeAppend (acc ++ [m]) rest := by
            simp [List.foldl_cons, hm]
        _ = acc ++ mergeRuns1 m rest := ih acc m
        _ = acc ++ mergeRuns1 n (m :: rest) := by
            simp [mergeRuns1, hk]
    · have hm : mergeAppend (acc ++ [n]) m = (acc ++ [n]) ++ [m] := by
        unfold mergeAppend
        rw [List.getLast?_concat]
        simp [hk]
      calc List.foldl mergeAppend (acc ++ [n]) (m :: rest)
          = List.foldl mergeAppend ((acc ++ [n]) ++ [m]) rest := by
            simp [List.foldl_cons, hm]
        _ = (acc ++ [n]) ++ mergeRuns1 m rest := ih (acc ++ [n]) m
        _ = acc ++ mergeRuns1 n (m :: rest) := by
            simp [mergeRuns1, hk]

theorem foldl_mergeAppend_nil (n : Nonzero) (l : List Nonzero) :
    List.foldl mergeAppend [] (n :: l) = mergeRuns1 n l := by
  have h := foldl_mergeAppend l [] n
  simpa using h

theorem not_badEntry_iff (tri : Bool) (n : Nonzero) :
    ¬ badEntry tri n ↔
      ¬(n.Row < 0 ∨ n.Col < 0) ∧ ¬(tri = true ∧ n.Row > n.Col) := by
  unfold badEntry
  tauto

theorem validateDedup_of_good {tri : Bool} {l : List Nonzero}
    (h : ∀ x ∈ l, ¬ badEntry tri x) (acc : List Nonzero) :
    validateDedup tri acc l = (List.foldl mergeAppend acc l, none) := by
  induction l generalizing acc with
  | nil => rfl
  | cons n rest ih =>
    obtain ⟨h1, h2⟩ := (not_badEntry_iff tri n).mp (h n (by simp))
    unfold validateDedup
    rw [if_neg h1, if_neg h2]
    exact ih (fun x hx => h x (by simp [hx])) (mergeAppend acc n)

theorem validateDedup_none_iff {tri : Bool} {l : List Nonzero}
    (acc : List Nonzero) :
    (validateDedup tri acc l).2 = none ↔ ∀ x ∈ l, ¬ badEntry tri x := by
  induction l generalizing acc with
  | nil => simp [validateDedup]
  | cons n rest ih =>
    unfold validateDedup
    by_cases h1 : n.Row < 0 ∨ n.Col < 0
    · rw [if_pos h1]
      simp only [List.mem_cons]
      constructor
      · intro h; cases h
      · intro h
        refine absurd ?_ (h n (Or.inl rfl))
        unfold badEntry
        rcases h1 with h1 | h1
        · exact Or.inl h1
        · exact Or.inr (Or.inl h1)
    · rw [if_neg h1]
      by_cases h2 : tri = true ∧ n.Row > n.Col
      · rw [if_pos h2]
        simp only [List.mem_cons]
        constructor
        · intro h; cases h
        · intro h
          refine absurd ?_ (h n (Or.inl rfl))
          unfold badEntry
          exact Or.inr (Or.inr h2)
      · rw [if_neg h2]
        rw [ih (mergeAppend acc n)]
        constructor
        · intro h x hx
          rcases List.mem_cons.mp hx with rfl | hx
          · exact (not_badEntry_iff tri x).mpr ⟨h1, h2⟩
          · exact h x hx
        · intro h x hx
          exact h x (by simp [hx])

theorem validateDedup_error {tri : Bool} {l : List Nonzero}
    {acc res : List Nonzero} {e : Error}
    (h : validateDedup tri acc l = (res, some e)) :
    res = [] ∧
      ((e = invalidIndexErr ∧ ∃ n ∈ l, n.Row < 0 ∨ n.Col < 0) ∨
       (e = notUpperTriangularErr ∧ tri = true ∧ ∃ n ∈ l, n.Row > n.Col)) := by
  induction l generalizing acc with
  | nil => exact absurd (congrArg Prod.snd h) (by simp [validateDedup])
  | cons n rest ih =>
    unfold validateDedup at h
    by_cases h1 : n.Row < 0 ∨ n.Col < 0
    · rw [if_pos h1] at h
      simp only [Prod.mk.injEq, Option.some.injEq] at h
      obtain ⟨hres, he⟩ := h
      exact ⟨hres.symm, Or.inl ⟨he.symm, n, by simp, h1⟩⟩
    · rw [if_neg h1] at h
      by_cases h2 : tri = true ∧ n.Row > n.Col
      · rw [if_pos h2] at h
        simp only [Prod.mk.injEq, Option.some.injEq] at h
        obtain ⟨hres, he⟩ := h
        exact ⟨hres.symm, Or.inr ⟨he.symm, h2.1, n, by simp, h2.2⟩⟩
      · rw [if_neg h2] at h
        obtain ⟨hres, hrest⟩ := ih h
        refine ⟨hres, ?_⟩
        rcases hrest with ⟨he, n', hn', hcond⟩ | ⟨he, htri, n', hn', hcond⟩
        · exact Or.inl ⟨he, n', by simp [hn'], hcond⟩
        · exact Or.inr ⟨he, htri, n', by simp [hn'], hcond⟩

/-! ### Keys, stability of the sort, and the merged-run structure -/

theorem keyOf_fst (n : Nonzero) : (keyOf n).1 = n.Row := rfl

theorem keyOf_snd (n : Nonzero) : (keyOf n).2 = n.Col := rfl

theorem keyOf_eq_iff (a b : Nonzero) :
    keyOf a = keyOf b ↔ a.Row = b.Row ∧ a.Col = b.Col := by
  unfold keyOf
  simp

theorem keyEqb_self (n : Nonzero) : keyEqb n n = true := by
  simp [keyEqb]

/-- Entries of equal key compare `nzLe` in both directions. -/
theorem nzLe_of_keyOf_eq {a b : Nonzero} (h : keyOf a = keyOf b) : nzLe a b := by
  rw [keyOf_eq_iff] at h
  unfold nzLe
  omega

/-- Stability of the sort on each key class: filtering a key class out of the
sorted list gives exactly the key class of the input, in input order. -/
theorem insertionSort_filter_keyEqb (nz : List Nonzero) (x : Nonzero) :
    (nz.insertionSort nzLe).filter (fun y => keyEqb y x) =
      nz.filter (fun y => keyEqb y x) := by
  have hc : List.Sublist (nz.filter (fun y => keyEqb y x)) nz :=
    List.filter_sublist nz
  have hpw : (nz.filter (fun y => keyEqb y x)).Pairwise nzLe := by
    apply List.pairwise_of_forall_mem_list
    intro a ha b hb
    have ha' : keyEqb a x = true :=
      List.of_mem_filter (p := fun y => keyEqb y x) ha
    have hb' : keyEqb b x = true :=
      List.of_mem_filter (p := fun y => keyEqb y x) hb
    have hka : keyOf a = keyOf x := (keyEqb_iff a x).mp ha'
    have hkb : keyOf b = keyOf x := (keyEqb_iff b x).mp hb'
    exact nzLe_of_keyOf_eq (hka.trans hkb.symm)
  have hsub : List.Sublist (nz.filter (fun y => keyEqb y x))
      (nz.insertionSort nzLe) :=
    List.sublist_insertionSort hpw hc
  have hself : (nz.filter (fun y => keyEqb y x)).filter (fun y => keyEqb y x)
      = nz.filter (fun y => keyEqb y x) :=
    List.filter_eq_self.mpr
      (fun a ha => List.of_mem_filter (p := fun y => keyEqb y x) ha)
  have hsub' : List.Sublist (nz.filter (fun y => keyEqb y x))
      ((nz.insertionSort nzLe).filter (fun y => keyEqb y x)) :=
    hself ▸ hsub.filter (fun y => keyEqb y x)
  have hlen : ((nz.insertionSort nzLe).filter (fun y => keyEqb y x)).length =
      (nz.filter (fun y => keyEqb y x)).length :=
    ((List.perm_insertionSort nzLe nz).filter _).length_eq
  exact (hsub'.eq_of_length hlen.symm).symm

/-- After the head of a sorted list, a strictly different key never reappears
as the head's key. -/
theorem key_not_mem_tail {n m : Nonzero} {rest : List Nonzero}
    (hpw : (n :: m :: rest).Pairwise nzLe) (hnm : keyOf n ≠ keyOf m) :
    ∀ y ∈ m :: rest, keyOf y ≠ keyOf n := by
  rw [List.pairwise_cons] at hpw
  obtain ⟨hn, hpw'⟩ := hpw
  rw [List.pairwise_cons] at hpw'
  obtain ⟨hm, _⟩ := hpw'
  intro y hy hk
  rcases List.mem_cons.mp hy with rfl | hy
  · exact hnm hk.symm
  · have h2 : nzLe m y := hm y hy
    have h3 : nzLe n m := hn m (by simp)
    rw [keyOf_eq_iff] at hk
    have hne : ¬(n.Row = m.Row ∧ n.Col = m.Col) := fun hc =>
      hnm ((keyOf_eq_iff n m).mpr hc)
    unfold nzLe at h2 h3
    omega

theorem mergeRuns1_cons_eq_of_keyEqb {n m : Nonzero} (rest : List Nonzero)
    (hk : keyEqb n m = true) :
    mergeRuns1 n (m :: rest) = mergeRuns1 m rest := by
  simp [mergeRuns1, hk]

theorem mergeRuns1_cons_eq_of_not_keyEqb {n m : Nonzero} (rest : List Nonzero)
    (hk : ¬ keyEqb n m = true) :
    mergeRuns1 n (m :: rest) = n :: mergeRuns1 m rest := by
  simp [mergeRuns1, hk]

theorem mergeRuns1_sublist (n : Nonzero) (l : List Nonzero) :
    List.Sublist (mergeRuns1 n l) (n :: l) := by
  induction l generalizing n with
  | nil => simp [mergeRuns1]
  | cons m rest ih =>
    by_cases hk : keyEqb n m = true
    · rw [mergeRuns1_cons_eq_of_keyEqb rest hk]
      exact (ih m).trans (List.sublist_cons_self n (m :: rest))
    · rw [mergeRuns1_cons_eq_of_not_keyEqb rest hk]
      exact (ih m).cons₂ n

theorem mergeRuns1_keys_mem (n : Nonzero) (l : List Nonzero) (k : Int × Int) :
    k ∈ (mergeRuns1 n l).map keyOf ↔ k ∈ (n :: l).map keyOf := by
  induction l generalizing n with
  | nil => simp [mergeRuns1]
  | cons m rest ih =>
    by_cases hk : keyEqb n m = true
    · have hkey : keyOf n = keyOf m := (keyEqb_iff n m).mp hk
      rw [mergeRuns1_cons_eq_of_keyEqb rest hk, ih m]
      simp only [List.map_cons, List.mem_cons, hkey]
      tauto
    · rw [mergeRuns1_cons_eq_of_not_keyEqb rest hk]
      have hm := ih m
      simp only [List.map_cons, List.mem_cons] at hm ⊢
      tauto

theorem mergeRuns1_pairwise {n : Nonzero} {l : List Nonzero}
    (hpw : (n :: l).Pairwise nzLe) : (mergeRuns1 n l).Pairwise nzKeyLt := by
  induction l generalizing n with
  | nil => simp [mergeRuns1]
  | cons m rest ih =>
    by_cases hk : keyEqb n m = true
    · rw [mergeRuns1_cons_eq_of_keyEqb rest hk]
      exact ih hpw.of_cons
    · rw [mergeRuns1_cons_eq_of_not_keyEqb rest hk]
      have hnm : keyOf n ≠ keyOf m := fun he => hk ((keyEqb_iff n m).mpr he)
      have hsep := key_not_mem_tail hpw hnm
      refine List.pairwise_cons.mpr ⟨?_, ih hpw.of_cons⟩
      intro y hy
      have hy' : y ∈ m :: rest := (mergeRuns1_sublist m rest).subset hy
      have hne := hsep y hy'
      have hle : nzLe n y := (List.pairwise_cons.mp hpw).1 y hy'
      have hne' : ¬(y.Row = n.Row ∧ y.Col = n.Col) := fun hc =>
        hne ((keyOf_eq_iff y n).mpr hc)
      unfold nzKeyLt keyLt
      rw [keyOf_fst, keyOf_fst, keyOf_snd, keyOf_snd]
      unfold nzLe at hle
      omega

/-- The merge keeps, for each key, exactly the last entry of that key class
in the sorted order. -/
theorem mergeRuns1_getLast {n : Nonzero} {l : List Nonzero}
    (hpw : (n :: l).Pairwise nzLe) :
    ∀ x ∈ mergeRuns1 n l,
      ((n :: l).filter (fun y => keyEqb y x)).getLast? = some x := by
  induction l generalizing n with
  | nil =>
    intro x hx
    simp only [mergeRuns1, List.mem_singleton] at hx
    subst hx
    rw [List.filter_cons_of_pos (p := fun y => keyEqb y x) (keyEqb_self x)]
    rfl
  | cons m rest ih =>
    intro x hx
    by_cases hk : keyEqb n m = true
    · have hkey := (keyEqb_iff n m).mp hk
      rw [mergeRuns1_cons_eq_of_keyEqb rest hk] at hx
      have hlast := ih hpw.of_cons x hx
      by_cases hnx : keyEqb n x = true
      · have hmx : keyEqb m x = true :=
          (keyEqb_iff m x).mpr (hkey.symm.trans ((keyEqb_iff n x).mp hnx))
        rw [List.filter_cons_of_pos (p := fun y => keyEqb y x) hnx]
        rw [List.filter_cons_of_pos (p := fun y => keyEqb y x) hmx] at hlast ⊢
        rw [List.getLast?_cons_cons]
        exact hlast
      · rw [List.filter_cons_of_neg (p := fun y => keyEqb y x) hnx]
        exact hlast
    · have hnm : keyOf n ≠ keyOf m := fun he => hk ((keyEqb_iff n m).mpr he)
      have hsep := key_not_mem_tail hpw hnm
      rw [mergeRuns1_cons_eq_of_not_keyEqb rest hk] at hx
      rcases List.mem_cons.mp hx with rfl | hx'
      · rw [List.filter_cons_of_pos (p := fun y => keyEqb y x) (keyEqb_self x)]
        have htail : (m :: rest).filter (fun y => keyEqb y x) = [] := by
          rw [List.filter_eq_nil_iff]
          intro y hy
          simp only [Bool.not_eq_true]
          rcases hb : keyEqb y x with _ | _
          · rfl
          · exact absurd ((keyEqb_iff y x).mp hb) (hsep y hy)
        rw [show ((m :: rest).filter (fun y => keyEqb y x) = []) from htail]
        rfl
      · have hlast := ih hpw.of_cons x hx'
        have hxm : x ∈ m :: rest := (mergeRuns1_sublist m rest).subset hx'
        have hne := hsep x hxm
        have hnx : ¬ keyEqb n x = true := fun he =>
          hne (((keyEqb_iff n x).mp he).symm)
        rw [List.filter_cons_of_neg (p := fun y => keyEqb y x) hnx]
        exact hlast

/-! ### Unfolding `nonzerosToCSR` -/

theorem nonzerosToCSR_ok_of {nz : List Nonzero} {tri : Bool}
    {f : List Nonzero} (hne : nz ≠ [])
    (hvd : validateDedup tri [] (nz.insertionSort nzLe) = (f, none)) :
    nonzerosToCSR nz tri =
      (buildStart 0 (-1) f, f.map (·.Col), f.map (·.Val), none) := by
  unfold nonzerosToCSR
  rw [if_neg hne]
  simp only [hvd]

theorem nonzerosToCSR_ok_inv {nz : List Nonzero} {tri : Bool}
    {s : List Nat} {ix vs : List Int}
    (h : nonzerosToCSR nz tri = (s, ix, vs, none)) (hne : nz ≠ []) :
    ∃ f, validateDedup tri [] (nz.insertionSort nzLe) = (f, none) ∧
      s = buildStart 0 (-1) f ∧ ix = f.map (·.Col) ∧ vs = f.map (·.Val) := by
  unfold nonzerosToCSR at h
  rw [if_neg hne] at h
  rcases hvd : validateDedup tri [] (nz.insertionSort nzLe) with ⟨f, oe⟩
  cases oe with
  | some e =>
    simp only [hvd] at h
    simp at h
  | none =>
    simp only [hvd] at h
    simp only [Prod.mk.injEq] at h
    obtain ⟨hs, hix, hvs, _⟩ := h
    exact ⟨f, rfl, hs.symm, hix.symm, hvs.symm⟩

/-! ### Characterisation of a successful conversion -/

theorem validateDedup_ok_eq {tri : Bool} {nz f : List Nonzero} (hne : nz ≠ [])
    (hvd : validateDedup tri [] (nz.insertionSort nzLe) = (f, none)) :
    ∃ h t, nz.insertionSort nzLe = h :: t ∧ f = mergeRuns1 h t := by
  rcases hs : nz.insertionSort nzLe with _ | ⟨h, t⟩
  · exfalso
    apply hne
    have hlen := (List.perm_insertionSort nzLe nz).length_eq
    rw [hs] at hlen
    exact List.eq_nil_of_length_eq_zero hlen.symm
  · rw [hs] at hvd
    have hgood : ∀ x ∈ h :: t, ¬ badEntry tri x := by
      have h2 := congrArg Prod.snd hvd
      exact (validateDedup_none_iff []).mp h2
    rw [validateDedup_of_good hgood []] at hvd
    rw [foldl_mergeAppend_nil] at hvd
    exact ⟨h, t, rfl, ((Prod.mk.injEq ..).mp hvd).1.symm⟩

/-- Everything that holds of the filtered entry list of a successful
`nonzerosToCSR` run: keys strictly ascending, keys exactly those of the
input, each surviving entry is the last entry of its key class in original
input order, and every surviving entry passed validation. -/
theorem filtered_props {tri : Bool} {nz f : List Nonzero} (hne : nz ≠ [])
    (hvd : validateDedup tri [] (nz.insertionSort nzLe) = (f, none)) :
    f.Pairwise nzKeyLt ∧
      (∀ k, k ∈ f.map keyOf ↔ k ∈ nz.map keyOf) ∧
      (∀ x ∈ f, (nz.filter fun y => keyEqb y x).getLast? = some x) ∧
      (∀ x ∈ f, ¬ badEntry tri x) := by
  obtain ⟨h, t, hs, hf⟩ := validateDedup_ok_eq hne hvd
  have hspw : (h :: t).Pairwise nzLe := by
    have := List.sorted_insertionSort nzLe nz
    rw [hs] at this
    exact this
  subst hf
  refine ⟨mergeRuns1_pairwise hspw, ?_, ?_, ?_⟩
  · intro k
    rw [mergeRuns1_keys_mem]
    rw [← hs]
    constructor
    · intro hk
      exact (((List.perm_insertionSort nzLe nz).map keyOf).mem_iff).mp hk
    · intro hk
      exact (((List.perm_insertionSort nzLe nz).map keyOf).mem_iff).mpr hk
  · intro x hx
    have hlast := mergeRuns1_getLast hspw x hx
    rw [← hs, insertionSort_filter_keyEqb] at hlast
    exact hlast
  · intro x hx
    have hmem : x ∈ h :: t := (mergeRuns1_sublist h t).subset hx
    have h2 := congrArg Prod.snd hvd
    rw [validateDedup_of_good (fun y hy => ?side) []] at hvd
    case side =>
      have hgood := (validateDedup_none_iff []).mp h2
      exact hgood y hy
    have hgood := (validateDedup_none_iff []).mp h2
    rw [hs] at hgood
    exact hgood x hmem

/-! ### Claim theorems -/

/-- Claim C4: the end-to-end scenario: the five triples produce exactly
`rowStart = [0,1,3]`, `colIndex = [1,0,1,0,1]`, `values = [1,1,2,3,2]`. -/
theorem nonzerosToCSR_end_to_end :
    nonzerosToCSR [⟨0, 1, 1⟩, ⟨1, 0, 1⟩, ⟨1, 1, 2⟩, ⟨2, 0, 3⟩, ⟨2, 1, 2⟩]
      false = ([0, 1, 3], [1, 0, 1, 0, 1], [1, 1, 2, 3, 2], none) := by
  decide

/-- Claim C6: the empty input succeeds with three empty sequences, for either
value of the triangular flag. -/
theorem nonzerosToCSR_empty (tri : Bool) :
    nonzerosToCSR [] tri = ([], [], [], none) := by
  unfold nonzerosToCSR
  simp

theorem nonzerosToCSR_err_of {nz : List Nonzero} {tri : Bool}
    {f : List Nonzero} {e : Error} (hne : nz ≠ [])
    (hvd : validateDedup tri [] (nz.insertionSort nzLe) = (f, some e)) :
    nonzerosToCSR nz tri = ([], [], [], some e) := by
  unfold nonzerosToCSR
  rw [if_neg hne]
  simp only [hvd]

theorem exists_mem_sorted_iff (nz : List Nonzero) (P : Nonzero → Prop) :
    (∃ n ∈ nz.insertionSort nzLe, P n) ↔ ∃ n ∈ nz, P n := by
  constructor
  · rintro ⟨n, hn, hP⟩
    exact ⟨n, ((List.perm_insertionSort nzLe nz).mem_iff).mp hn, hP⟩
  · rintro ⟨n, hn, hP⟩
    exact ⟨n, ((List.perm_insertionSort nzLe nz).mem_iff).mpr hn, hP⟩

theorem badEntry_cases (tri : Bool) (n : Nonzero) :
    badEntry tri n ↔ (n.Row < 0 ∨ n.Col < 0) ∨ (tri = true ∧ n.Row > n.Col) := by
  unfold badEntry
  tauto

/-- A sorted list with pairwise-distinct keys is strictly sorted by key. -/
theorem pairwise_nzKeyLt_of_nodup {l : List Nonzero} (hpw : l.Pairwise nzLe)
    (hnd : (l.map keyOf).Nodup) : l.Pairwise nzKeyLt := by
  have hnd' : l.Pairwise (fun a b => keyOf a ≠ keyOf b) :=
    List.pairwise_map.mp hnd
  refine (hpw.and hnd').imp ?_
  intro a b hab
  obtain ⟨hle, hne⟩ := hab
  have hne' : ¬(a.Row = b.Row ∧ a.Col = b.Col) := fun hc =>
    hne ((keyOf_eq_iff a b).mpr hc)
  unfold nzKeyLt keyLt
  rw [keyOf_fst, keyOf_fst, keyOf_snd, keyOf_snd]
  unfold nzLe at hle
  omega

/-- Claim C2 (amended): for duplicate-free keys, `nonzerosToCSR` is invariant
under permutation of its input. -/
theorem nonzerosToCSR_perm_invariant (nz₁ nz₂ : List Nonzero) (tri : Bool)
    (hp : nz₁.Perm nz₂) (hnd : (nz₁.map keyOf).Nodup) :
    nonzerosToCSR nz₁ tri = nonzerosToCSR nz₂ tri := by
  by_cases hne1 : nz₁ = []
  · subst hne1
    have h2 : nz₂ = [] := hp.symm.eq_nil
    subst h2
    rfl
  · have hne2 : nz₂ ≠ [] := fun h2 => hne1 (by
      subst h2
      exact hp.eq_nil)
    have hsorteq : nz₁.insertionSort nzLe = nz₂.insertionSort nzLe := by
      have hperm : (nz₁.insertionSort nzLe).Perm (nz₂.insertionSort nzLe) :=
        (List.perm_insertionSort nzLe nz₁).trans
          (hp.trans (List.perm_insertionSort nzLe nz₂).symm)
      have hnd1 : ((nz₁.insertionSort nzLe).map keyOf).Nodup :=
        (((List.perm_insertionSort nzLe nz₁).map keyOf).nodup_iff).mpr hnd
      have hnd2 : ((nz₂.insertionSort nzLe).map keyOf).Nodup :=
        ((hperm.map keyOf).nodup_iff).mp hnd1
      have h1 : (nz₁.insertionSort nzLe).Pairwise nzKeyLt :=
        pairwise_nzKeyLt_of_nodup (List.sorted_insertionSort nzLe nz₁) hnd1
      have h2 : (nz₂.insertionSort nzLe).Pairwise nzKeyLt :=
        pairwise_nzKeyLt_of_nodup (List.sorted_insertionSort nzLe nz₂) hnd2
      exact List.eq_of_perm_of_sorted hperm h1 h2
    unfold nonzerosToCSR
    rw [if_neg hne1, if_neg hne2, hsorteq]

/-- Claim C2 counterexample: a permutation of a valid (all indices
non-negative) triple sequence with a duplicate key changes the output, so
`nonzerosToCSR` is not order-independent as claimed. -/
theorem nonzerosToCSR_not_perm_invariant :
    ([⟨0, 0, 2⟩, ⟨0, 0, 1⟩] : List Nonzero).Perm [⟨0, 0, 1⟩, ⟨0, 0, 2⟩] ∧
    nonzerosToCSR [⟨0, 0, 1⟩, ⟨0, 0, 2⟩] false ≠
      nonzerosToCSR [⟨0, 0, 2⟩, ⟨0, 0, 1⟩] false := by
  constructor
  · exact List.Perm.swap (⟨0, 0, 1⟩ : Nonzero) ⟨0, 0, 2⟩ []
  · decide

/-- Witness for the amended C2 at a concrete permuted pair. -/
theorem nonzerosToCSR_perm_invariant_witness :
    nonzerosToCSR [⟨0, 1, 5⟩, ⟨0, 0, 3⟩] false =
      nonzerosToCSR [⟨0, 0, 3⟩, ⟨0, 1, 5⟩] false :=
  nonzerosToCSR_perm_invariant [⟨0, 1, 5⟩, ⟨0, 0, 3⟩] [⟨0, 0, 3⟩, ⟨0, 1, 5⟩]
    false (List.Perm.swap (⟨0, 0, 3⟩ : Nonzero) ⟨0, 1, 5⟩ []) (by decide)

/-- Claim C3: `nonzerosToCSR` fails exactly when some triple has a negative
index, or the triangular flag is set and some triple lies below the diagonal;
on failure the error value names the violated rule and all three output
sequences are empty. -/
theorem nonzerosToCSR_error_iff (nz : List Nonzero) (tri : Bool) :
    (((nonzerosToCSR nz tri).2.2.2 ≠ none) ↔
      ∃ n ∈ nz, (n.Row < 0 ∨ n.Col < 0) ∨ (tri = true ∧ n.Row > n.Col)) ∧
    (∀ s ix vs e, nonzerosToCSR nz tri = (s, ix, vs, some e) →
      (s = [] ∧ ix = [] ∧ vs = []) ∧
      ((e = invalidIndexErr ∧ ∃ n ∈ nz, n.Row < 0 ∨ n.Col < 0) ∨
       (e = notUpperTriangularErr ∧ tri = true ∧ ∃ n ∈ nz, n.Row > n.Col))) := by
  by_cases hne : nz = []
  · subst hne
    rw [nonzerosToCSR_empty tri]
    constructor
    · simp
    · intro s ix vs e h
      simp at h
  · rcases hvd : validateDedup tri [] (nz.insertionSort nzLe) with ⟨f, oe⟩
    cases oe with
    | none =>
      rw [nonzerosToCSR_ok_of hne hvd]
      have hgood : ∀ x ∈ nz.insertionSort nzLe, ¬ badEntry tri x :=
        (validateDedup_none_iff []).mp (congrArg Prod.snd hvd)
      constructor
      · refine iff_of_false (by simp) ?_
        rintro ⟨n, hn, hbad⟩
        refine hgood n (((List.perm_insertionSort nzLe nz).mem_iff).mpr hn) ?_
        exact (badEntry_cases tri n).mpr hbad
      · intro s ix vs e h
        simp only [Prod.mk.injEq] at h
        exact absurd h.2.2.2 (by simp)
    | some e0 =>
      rw [nonzerosToCSR_err_of hne hvd]
      obtain ⟨-, herr⟩ := validateDedup_error hvd
      have herr' :
          (e0 = invalidIndexErr ∧ ∃ n ∈ nz, n.Row < 0 ∨ n.Col < 0) ∨
          (e0 = notUpperTriangularErr ∧ tri = true ∧
            ∃ n ∈ nz, n.Row > n.Col) := by
        rcases herr with ⟨he, hex⟩ | ⟨he, htri, hex⟩
        · exact Or.inl ⟨he, (exists_mem_sorted_iff nz _).mp hex⟩
        · exact Or.inr ⟨he, htri, (exists_mem_sorted_iff nz _).mp hex⟩
      constructor
      · refine iff_of_true (by simp) ?_
        rcases herr' with ⟨-, n, hn, hcond⟩ | ⟨-, htri, n, hn, hcond⟩
        · exact ⟨n, hn, Or.inl hcond⟩
        · exact ⟨n, hn, Or.inr ⟨htri, hcond⟩⟩
      · intro s ix vs e h
        simp only [Prod.mk.injEq, Option.some.injEq] at h
        obtain ⟨hs, hix, hvs, he⟩ := h
        exact ⟨⟨hs.symm, hix.symm, hvs.symm⟩, he ▸ herr'⟩

/-- Witness for C3: on the concrete input `[(-1,0,1)]` the conversion fails
with the invalid-index error and empty outputs. -/
theorem nonzerosToCSR_error_iff_witness :
    (([] : List Nat) = [] ∧ ([] : List Int) = [] ∧ ([] : List Int) = []) ∧
    ((invalidIndexErr = invalidIndexErr ∧
        ∃ n ∈ ([⟨-1, 0, 1⟩] : List Nonzero), n.Row < 0 ∨ n.Col < 0) ∨
     (invalidIndexErr = notUpperTriangularErr ∧ (false : Bool) = true ∧
        ∃ n ∈ ([⟨-1, 0, 1⟩] : List Nonzero), n.Row > n.Col)) :=
  (nonzerosToCSR_error_iff [⟨-1, 0, 1⟩] false).2 [] [] [] invalidIndexErr
    (by decide)

/-! ### Structure of the `start` array -/

theorem buildStart_ge (l : List Nonzero) :
    ∀ (i : Nat) (prev : Int) (x : Nat), x ∈ buildStart i prev l → i ≤ x := by
  induction l with
  | nil => intro i prev x hx; simp [buildStart] at hx
  | cons n rest ih =>
    intro i prev x hx
    unfold buildStart at hx
    by_cases hb : n.Row > prev
    · rw [if_pos hb] at hx
      rcases List.mem_cons.mp hx with rfl | hx
      · exact Nat.le_refl x
      · exact Nat.le_of_succ_le (ih (i + 1) n.Row x hx)
    · rw [if_neg hb] at hx
      exact Nat.le_of_succ_le (ih (i + 1) prev x hx)

theorem buildStart_chain (l : List Nonzero) :
    ∀ (i : Nat) (prev : Int), (buildStart i prev l).Chain' (· < ·) := by
  induction l with
  | nil => intro i prev; simp [buildStart]
  | cons n rest ih =>
    intro i prev
    unfold buildStart
    by_cases hb : n.Row > prev
    · rw [if_pos hb]
      refine List.chain'_cons'.mpr ⟨?_, ih (i + 1) n.Row⟩
      intro y hy
      have hmem : y ∈ buildStart (i + 1) n.Row rest := by
        exact List.mem_of_mem_head? hy
      exact Nat.lt_of_succ_le (buildStart_ge rest (i + 1) n.Row y hmem)
    · rw [if_neg hb]
      exact ih (i + 1) prev

/-- A position where the row strictly increases is recorded in `start`. -/
theorem buildStart_mem_of_row_lt (l : List Nonzero) :
    ∀ (i : Nat) (prev : Int) (j : Nat)
      (hpw : l.Pairwise (fun a b => a.Row ≤ b.Row))
      (hprev : ∀ x ∈ l, prev ≤ x.Row) (hj : j + 1 < l.length),
      (l.get ⟨j, by omega⟩).Row < (l.get ⟨j + 1, hj⟩).Row →
      (i + (j + 1)) ∈ buildStart i prev l := by
  induction l with
  | nil => intro i prev j _ _ hj; simp at hj
  | cons n rest ih =>
    intro i prev j hpw hprev hj hinc
    obtain ⟨hn, hpw'⟩ := List.pairwise_cons.mp hpw
    cases j with
    | zero =>
      rcases rest with _ | ⟨m, rest'⟩
      · simp at hj
      · have hm : n.Row < m.Row := by simpa using hinc
        unfold buildStart
        by_cases hb : n.Row > prev
        · rw [if_pos hb]
          refine List.mem_cons.mpr (Or.inr ?_)
          unfold buildStart
          rw [if_pos hm]
          simp
        · have hpn : prev = n.Row :=
            le_antisymm (hprev n (by simp)) (by omega)
          rw [if_neg hb]
          unfold buildStart
          rw [if_pos (by omega : m.Row > prev)]
          simp
    | succ j' =>
      have hj' : j' + 1 < rest.length := by
        simpa using hj
      have hinc' : (rest.get ⟨j', by omega⟩).Row <
          (rest.get ⟨j' + 1, hj'⟩).Row := by
        simpa using hinc
      unfold buildStart
      by_cases hb : n.Row > prev
      · rw [if_pos hb]
        refine List.mem_cons.mpr (Or.inr ?_)
        have := ih (i + 1) n.Row j' hpw' (fun x hx => hn x hx) hj' hinc'
        have harith : i + 1 + (j' + 1) = i + (j' + 1 + 1) := by omega
        rw [harith] at this
        exact this
      · have hpn : prev = n.Row :=
          le_antisymm (hprev n (by simp)) (by omega)
        rw [if_neg hb]
        have hprev' : ∀ x ∈ rest, prev ≤ x.Row := fun x hx =>
          hpn ▸ hn x hx
        have := ih (i + 1) prev j' hpw' hprev' hj' hinc'
        have harith : i + 1 + (j' + 1) = i + (j' + 1 + 1) := by omega
        rw [harith] at this
        exact this

/-- The length of `start` counts the distinct rows, plus one fewer when the
initial `prevRow` already equals the first row. -/
theorem buildStart_length (l : List Nonzero) :
    ∀ (i : Nat) (prev : Int), l.Pairwise (fun a b => a.Row ≤ b.Row) →
      (∀ x ∈ l, prev ≤ x.Row) →
      (buildStart i prev l).length +
          (if prev ∈ l.map (·.Row) then 1 else 0) =
        ((l.map (·.Row)).dedup).length := by
  induction l with
  | nil => intro i prev _ _; simp [buildStart]
  | cons n rest ih =>
    intro i prev hpw hprev
    obtain ⟨hn, hpw'⟩ := List.pairwise_cons.mp hpw
    have hrow : ∀ x ∈ rest, n.Row ≤ x.Row := fun x hx => hn x hx
    unfold buildStart
    by_cases hb : n.Row > prev
    · rw [if_pos hb]
      have hnot : prev ∉ (n :: rest).map (·.Row) := by
        simp only [List.map_cons, List.mem_cons]
        rintro (h | h)
        · omega
        · obtain ⟨x, hx, hxr⟩ := List.mem_map.mp h
          have := hn x hx
          omega
      rw [if_neg hnot]
      have hIH := ih (i + 1) n.Row hpw' hrow
      by_cases hm : n.Row ∈ rest.map (·.Row)
      · rw [if_pos hm] at hIH
        rw [List.map_cons, List.dedup_cons_of_mem hm]
        simp only [List.length_cons]
        omega
      · rw [if_neg hm] at hIH
        rw [List.map_cons, List.dedup_cons_of_not_mem hm]
        simp only [List.length_cons]
        omega
    · have hpn : prev = n.Row :=
        le_antisymm (hprev n (by simp)) (by omega)
      rw [if_neg hb]
      have hmem : prev ∈ (n :: rest).map (·.Row) := by
        simp [hpn]
      rw [if_pos hmem]
      have hprev' : ∀ x ∈ rest, prev ≤ x.Row := fun x hx => hpn ▸ hrow x hx
      have hIH := ih (i + 1) prev hpw' hprev'
      by_cases hm : n.Row ∈ rest.map (·.Row)
      · have hm' : prev ∈ rest.map (·.Row) := by rw [hpn]; exact hm
        rw [if_pos hm'] at hIH
        rw [List.map_cons, List.dedup_cons_of_mem hm]
        omega
      · have hm' : prev ∉ rest.map (·.Row) := by rw [hpn]; exact hm
        rw [if_neg hm'] at hIH
        rw [List.map_cons, List.dedup_cons_of_not_mem hm]
        simp only [List.length_cons]
        omega

theorem mem_map_row_iff_of_keys {f nz : List Nonzero}
    (hkeys : ∀ k, k ∈ f.map keyOf ↔ k ∈ nz.map keyOf) (r : Int) :
    r ∈ f.map (·.Row) ↔ r ∈ nz.map (·.Row) := by
  constructor
  · intro hr
    obtain ⟨x, hx, hxr⟩ := List.mem_map.mp hr
    have hk := (hkeys (keyOf x)).mp (List.mem_map.mpr ⟨x, hx, rfl⟩)
    obtain ⟨y, hy, hyk⟩ := List.mem_map.mp hk
    have : y.Row = x.Row := ((keyOf_eq_iff y x).mp hyk).1
    exact List.mem_map.mpr ⟨y, hy, by omega⟩
  · intro hr
    obtain ⟨x, hx, hxr⟩ := List.mem_map.mp hr
    have hk := (hkeys (keyOf x)).mpr (List.mem_map.mpr ⟨x, hx, rfl⟩)
    obtain ⟨y, hy, hyk⟩ := List.mem_map.mp hk
    have : y.Row = x.Row := ((keyOf_eq_iff y x).mp hyk).1
    exact List.mem_map.mpr ⟨y, hy, by omega⟩

theorem keyLt_ne {k₁ k₂ : Int × Int} (h : keyLt k₁ k₂) : k₁ ≠ k₂ := by
  intro he
  rw [Prod.ext_iff] at he
  unfold keyLt at h
  omega

/-- Claim C5 (amended): for a successful, non-empty conversion the column
indices strictly increase inside every row (between any two adjacent
positions not separated by a `rowStart` boundary), `rowStart` is
non-decreasing and starts at offset `0`, `colIndex` and `values` have equal
length, equal to the number of surviving post-merge entries (the distinct
keys), and when the rows present are exactly `{0, 1, 2}` the `rowStart`
array has length 3. -/
theorem nonzerosToCSR_invariants (nz : List Nonzero) (tri : Bool)
    (s : List Nat) (ix vs : List Int)
    (h : nonzerosToCSR nz tri = (s, ix, vs, none)) (hvs : vs ≠ []) :
    (∀ j, (hj : j + 1 < ix.length) → (j + 1) ∉ s →
        ix.get ⟨j, by omega⟩ < ix.get ⟨j + 1, hj⟩) ∧
    s.Chain' (· ≤ ·) ∧ s.head? = some 0 ∧
    ix.length = vs.length ∧ vs.length = ((nz.map keyOf).dedup).length ∧
    (((∀ n ∈ nz, n.Row = 0 ∨ n.Row = 1 ∨ n.Row = 2) ∧
        (∃ n ∈ nz, n.Row = 0) ∧ (∃ n ∈ nz, n.Row = 1) ∧
        (∃ n ∈ nz, n.Row = 2)) →
      s.length = 3) := by
  have hne : nz ≠ [] := by
    intro hcon
    subst hcon
    rw [nonzerosToCSR_empty tri] at h
    simp only [Prod.mk.injEq] at h
    exact hvs h.2.2.1.symm
  obtain ⟨f, hvd, hseq, hixeq, hvseq⟩ := nonzerosToCSR_ok_inv h hne
  obtain ⟨hpw, hkeys, hlast, hgood⟩ := filtered_props hne hvd
  have hrow_pos : ∀ x ∈ f, 0 ≤ x.Row := by
    intro x hx
    have := (not_badEntry_iff tri x).mp (hgood x hx)
    omega
  have hpw_le : f.Pairwise (fun a b => a.Row ≤ b.Row) := by
    refine hpw.imp ?_
    intro a b hab
    unfold nzKeyLt keyLt at hab
    rw [keyOf_fst, keyOf_fst, keyOf_snd, keyOf_snd] at hab
    omega
  have hprev : ∀ x ∈ f, (-1 : Int) ≤ x.Row := fun x hx => by
    have := hrow_pos x hx
    omega
  have hf_ne : f ≠ [] := by
    intro hcon
    rw [hcon] at hvseq
    exact hvs (by simpa using hvseq)
  refine ⟨?_, ?_, ?_, ?_, ?_, ?_⟩
  · intro j hj hjs
    subst hixeq
    have hjf : j + 1 < f.length := by simpa using hj
    have hrow_eq : (f.get ⟨j, by omega⟩).Row = (f.get ⟨j + 1, hjf⟩).Row := by
      by_contra hcon
      have hle : (f.get ⟨j, by omega⟩).Row ≤ (f.get ⟨j + 1, hjf⟩).Row := by
        have := List.pairwise_iff_get.mp hpw_le ⟨j, by omega⟩ ⟨j + 1, hjf⟩
          (by simp)
        exact this
      have hlt : (f.get ⟨j, by omega⟩).Row < (f.get ⟨j + 1, hjf⟩).Row := by
        omega
      have hmem := buildStart_mem_of_row_lt f 0 (-1) j hpw_le hprev hjf hlt
      rw [Nat.zero_add] at hmem
      rw [hseq] at hjs
      exact hjs hmem
    have hkey := List.pairwise_iff_get.mp hpw ⟨j, by omega⟩ ⟨j + 1, hjf⟩
      (by simp)
    unfold nzKeyLt keyLt at hkey
    rw [keyOf_fst, keyOf_fst, keyOf_snd, keyOf_snd] at hkey
    have hcol : (f.get ⟨j, by omega⟩).Col < (f.get ⟨j + 1, hjf⟩).Col := by
      omega
    rw [List.get_eq_getElem, List.get_eq_getElem, List.getElem_map,
      List.getElem_map]
    rw [List.get_eq_getElem, List.get_eq_getElem] at hcol
    exact hcol
  · subst hseq
    exact (buildStart_chain f 0 (-1)).imp (fun a b hab => Nat.le_of_lt hab)
  · rcases f with _ | ⟨x, f'⟩
    · exact absurd rfl hf_ne
    · subst hseq
      unfold buildStart
      rw [if_pos (by have := hrow_pos x (by simp); omega : x.Row > -1)]
      rfl
  · rw [hixeq, hvseq]
    simp
  · have hfnodup : (f.map keyOf).Nodup :=
      (hpw.map keyOf (fun a b hab => hab)).imp
        (fun hab => keyLt_ne hab)
    have hdnodup : ((nz.map keyOf).dedup).Nodup := List.nodup_dedup _
    have hmemiff : ∀ k, k ∈ f.map keyOf ↔ k ∈ (nz.map keyOf).dedup := by
      intro k
      rw [List.mem_dedup]
      exact hkeys k
    have hperm := (List.perm_ext_iff_of_nodup hfnodup hdnodup).mpr hmemiff
    rw [hvseq]
    simpa using hperm.length_eq
  · rintro ⟨hsub3, h0, h1, h2⟩
    have hlen := buildStart_length f 0 (-1) hpw_le hprev
    have hnotmem : (-1 : Int) ∉ f.map (·.Row) := by
      intro hmem
      obtain ⟨x, hx, hxr⟩ := List.mem_map.mp hmem
      have := hrow_pos x hx
      omega
    rw [if_neg hnotmem] at hlen
    have hdperm : ((f.map (·.Row)).dedup).Perm [0, 1, 2] := by
      refine (List.perm_ext_iff_of_nodup (List.nodup_dedup _) (by decide)).mpr
        ?_
      intro r
      rw [List.mem_dedup, mem_map_row_iff_of_keys hkeys r]
      constructor
      · intro hr
        obtain ⟨x, hx, hxr⟩ := List.mem_map.mp hr
        rcases hsub3 x hx with h | h | h <;> simp [← hxr, h]
      · intro hr
        have hr' : r = 0 ∨ r = 1 ∨ r = 2 := by simpa using hr
        rcases hr' with rfl | rfl | rfl
        · obtain ⟨x, hx, hxr⟩ := h0
          exact List.mem_map.mpr ⟨x, hx, hxr⟩
        · obtain ⟨x, hx, hxr⟩ := h1
          exact List.mem_map.mpr ⟨x, hx, hxr⟩
        · obtain ⟨x, hx, hxr⟩ := h2
          exact List.mem_map.mpr ⟨x, hx, hxr⟩
    have h3 : ((f.map (·.Row)).dedup).length = 3 := by
      simpa using hdperm.length_eq
    rw [hseq]
    omega

/-- Claim C5 counterexample: rows `0`, `1` and `2` each carry an entry, yet
`rowStart` has length 4 (row 3 is also populated), refuting the claim's
"length 3" clause as literally stated. -/
theorem nonzerosToCSR_rowStart_length_counterexample :
    nonzerosToCSR [⟨0, 0, 1⟩, ⟨1, 0, 1⟩, ⟨2, 0, 1⟩, ⟨3, 0, 1⟩] false =
      ([0, 1, 2, 3], [0, 0, 0, 0], [1, 1, 1, 1], none) ∧
    (⟨0, 0, 1⟩ : Nonzero) ∈
      ([⟨0, 0, 1⟩, ⟨1, 0, 1⟩, ⟨2, 0, 1⟩, ⟨3, 0, 1⟩] : List Nonzero) ∧
    (⟨1, 0, 1⟩ : Nonzero) ∈
      ([⟨0, 0, 1⟩, ⟨1, 0, 1⟩, ⟨2, 0, 1⟩, ⟨3, 0, 1⟩] : List Nonzero) ∧
    (⟨2, 0, 1⟩ : Nonzero) ∈
      ([⟨0, 0, 1⟩, ⟨1, 0, 1⟩, ⟨2, 0, 1⟩, ⟨3, 0, 1⟩] : List Nonzero) ∧
    ([0, 1, 2, 3] : List Nat).length ≠ 3 := by
  decide

/-- Witness for the amended C5 at the end-to-end example of C4. -/
theorem nonzerosToCSR_invariants_witness :
    ([0, 1, 3] : List Nat).length = 3 ∧
    ([0, 1, 3] : List Nat).Chain' (· ≤ ·) ∧
    ([0, 1, 3] : List Nat).head? = some 0 ∧
    ([1, 0, 1, 0, 1] : List Int).length = ([1, 1, 2, 3, 2] : List Int).length := by
  have H := nonzerosToCSR_invariants
    [⟨0, 1, 1⟩, ⟨1, 0, 1⟩, ⟨1, 1, 2⟩, ⟨2, 0, 3⟩, ⟨2, 1, 2⟩] false
    [0, 1, 3] [1, 0, 1, 0, 1] [1, 1, 2, 3, 2] (by decide) (by decide)
  exact ⟨H.2.2.2.2.2 (by decide), H.2.1, H.2.2.1, H.2.2.2.1⟩

/-! ### `expandSlice` and `maxRowCol` -/

/-- Claim C7: `expandSlice` returns the slice unchanged when its length is
`n`, a fresh slice of `n` copies of the fill value when it is empty, and
fails with the inconsistent-length error (returning no slice) for every
other length -- it never truncates or partially fills. -/
theorem expandSlice_spec (n : Nat) (slice : List Int) (fillValue : Int) :
    (slice.length = n → expandSlice n slice fillValue = (slice, none)) ∧
    (slice = [] → expandSlice n slice fillValue =
      (List.replicate n fillValue, none)) ∧
    (slice.length ≠ n → slice ≠ [] →
      expandSlice n slice fillValue = ([], some inconsistentLengthErr)) := by
  refine ⟨?_, ?_, ?_⟩
  · intro h
    unfold expandSlice
    rw [if_pos h]
  · intro h
    subst h
    by_cases h0 : n = 0
    · subst h0
      rfl
    · unfold expandSlice
      rw [if_neg (by simpa using fun he => h0 he.symm)]
      simp
  · intro h hne
    unfold expandSlice
    rw [if_neg h, if_neg (by simpa using hne)]

/-- Witness for C7 at the three concrete cases named by the spec. -/
theorem expandSlice_spec_witness :
    expandSlice 3 [] 7 = ([7, 7, 7], none) ∧
    expandSlice 3 [1, 2, 3] 0 = ([1, 2, 3], none) ∧
    expandSlice 3 [1, 2] 0 = ([], some inconsistentLengthErr) :=
  ⟨(expandSlice_spec 3 [] 7).2.1 rfl,
   (expandSlice_spec 3 [1, 2, 3] 0).1 rfl,
   (expandSlice_spec 3 [1, 2] 0).2.2 (by decide) (by decide)⟩

theorem maxRowCol_foldl (nz : List Nonzero) :
    ∀ (a b : Int),
      a ≤ (nz.foldl maxRowColStep (a, b)).1 ∧
      b ≤ (nz.foldl maxRowColStep (a, b)).2 ∧
      (∀ n ∈ nz, n.Row ≤ (nz.foldl maxRowColStep (a, b)).1 ∧
        n.Col ≤ (nz.foldl maxRowColStep (a, b)).2) ∧
      ((nz.foldl maxRowColStep (a, b)).1 = a ∨
        ∃ n ∈ nz, (nz.foldl maxRowColStep (a, b)).1 = n.Row) ∧
      ((nz.foldl maxRowColStep (a, b)).2 = b ∨
        ∃ n ∈ nz, (nz.foldl maxRowColStep (a, b)).2 = n.Col) := by
  induction nz with
  | nil => intro a b; simp
  | cons n rest ih =>
    intro a b
    have hfold : (n :: rest).foldl maxRowColStep (a, b) =
        rest.foldl maxRowColStep
          ((if n.Row > a then n.Row else a),
           (if n.Col > b then n.Col else b)) := rfl
    rw [hfold]
    obtain ⟨iha, ihb, ihmem, ihat1, ihat2⟩ :=
      ih (if n.Row > a then n.Row else a) (if n.Col > b then n.Col else b)
    have ha' : a ≤ (if n.Row > a then n.Row else a) := by split <;> omega
    have hb' : b ≤ (if n.Col > b then n.Col else b) := by split <;> omega
    have hna : n.Row ≤ (if n.Row > a then n.Row else a) := by split <;> omega
    have hnb : n.Col ≤ (if n.Col > b then n.Col else b) := by split <;> omega
    refine ⟨le_trans ha' iha, le_trans hb' ihb, ?_, ?_, ?_⟩
    · intro m hm
      rcases List.mem_cons.mp hm with rfl | hm
      · exact ⟨le_trans hna iha, le_trans hnb ihb⟩
      · exact ihmem m hm
    · rcases ihat1 with h | ⟨m, hm, hmr⟩
      · by_cases hc : n.Row > a
        · exact Or.inr ⟨n, by simp, h.trans (if_pos hc)⟩
        · exact Or.inl (h.trans (if_neg hc))
      · exact Or.inr ⟨m, by simp [hm], hmr⟩
    · rcases ihat2 with h | ⟨m, hm, hmc⟩
      · by_cases hc : n.Col > b
        · exact Or.inr ⟨n, by simp, h.trans (if_pos hc)⟩
        · exact Or.inl (h.trans (if_neg hc))
      · exact Or.inr ⟨m, by simp [hm], hmc⟩

/-- Claim C8 (amended): `maxRowCol` never fails and returns, in each
dimension, the maximum of the sentinel `-1` and every index present (so for
any index below `-1` the sentinel dominates); the empty sequence yields
`(-1, -1)`. -/
theorem maxRowCol_spec (nz : List Nonzero) :
    (-1 : Int) ≤ (maxRowCol nz).1 ∧ (-1 : Int) ≤ (maxRowCol nz).2 ∧
    (∀ n ∈ nz, n.Row ≤ (maxRowCol nz).1 ∧ n.Col ≤ (maxRowCol nz).2) ∧
    ((maxRowCol nz).1 = -1 ∨ ∃ n ∈ nz, (maxRowCol nz).1 = n.Row) ∧
    ((maxRowCol nz).2 = -1 ∨ ∃ n ∈ nz, (maxRowCol nz).2 = n.Col) ∧
    (nz = [] → maxRowCol nz = (-1, -1)) := by
  obtain ⟨h1, h2, h3, h4, h5⟩ := maxRowCol_foldl nz (-1) (-1)
  exact ⟨h1, h2, h3, h4, h5, fun h => by subst h; rfl⟩

/-- Witness for the amended C8 on the empty and a one-element sequence. -/
theorem maxRowCol_spec_witness :
    maxRowCol [] = (-1, -1) ∧
    (⟨4, 2, 9⟩ : Nonzero).Row ≤ (maxRowCol [⟨4, 2, 9⟩]).1 ∧
    (⟨4, 2, 9⟩ : Nonzero).Col ≤ (maxRowCol [⟨4, 2, 9⟩]).2 := by
  refine ⟨(maxRowCol_spec []).2.2.2.2.2 rfl, ?_, ?_⟩
  · exact ((maxRowCol_spec [⟨4, 2, 9⟩]).2.2.1 ⟨4, 2, 9⟩ (by simp)).1
  · exact ((maxRowCol_spec [⟨4, 2, 9⟩]).2.2.1 ⟨4, 2, 9⟩ (by simp)).2

/-- Claim C8 counterexample: on `[(-5, -7, 1)]` the function returns
`(-1, -1)`, which is not the maximum row/column index occurring in the
sequence (`-5` and `-7`). -/
theorem maxRowCol_counterexample :
    ([⟨-5, -7, 1⟩] : List Nonzero).map (·.Row) = [-5] ∧
    ([⟨-5, -7, 1⟩] : List Nonzero).map (·.Col) = [-7] ∧
    maxRowCol [⟨-5, -7, 1⟩] = (-1, -1) ∧
    ((-1 : Int), (-1 : Int)) ≠ ((-5 : Int), (-7 : Int)) := by
  decide

/-! ### `AddDenseRow` and `Solution.Value` -/

theorem denseRowNonzeros_mem (coeffs : List Int) :
    ∀ (row : Int) (c : Nat) (t : Nonzero),
      t ∈ denseRowNonzeros row c coeffs ↔
      ∃ j, ∃ hj : j < coeffs.length,
        t.Row = row ∧ t.Col = ((c + j : Nat) : Int) ∧
        t.Val = coeffs.get ⟨j, hj⟩ ∧ coeffs.get ⟨j, hj⟩ ≠ 0 := by
  induction coeffs with
  | nil =>
    intro row c t
    simp [denseRowNonzeros]
  | cons v rest ih =>
    intro row c t
    unfold denseRowNonzeros
    by_cases hv : v ≠ 0
    · rw [if_pos hv]
      constructor
      · intro ht
        rcases List.mem_cons.mp ht with rfl | ht
        · exact ⟨0, by simp, rfl, by simp, by simp, by simpa using hv⟩
        · obtain ⟨j, hj, hr, hc, hval, hne⟩ := (ih row (c + 1) t).mp ht
          refine ⟨j + 1, by simpa using hj, hr, ?_, by simpa using hval,
            by simpa using hne⟩
          rw [hc]
          congr 1
          omega
      · rintro ⟨j, hj, hr, hc, hval, hne⟩
        cases j with
        | zero =>
          refine List.mem_cons.mpr (Or.inl ?_)
          have hval' : t.Val = v := by simpa using hval
          have hc' : t.Col = (c : Int) := by simpa using hc
          cases t
          simp only [Nonzero.mk.injEq]
          exact ⟨hr, hc', hval'⟩
        | succ j' =>
          refine List.mem_cons.mpr (Or.inr ?_)
          refine (ih row (c + 1) t).mpr ⟨j', by simpa using hj, hr, ?_, by
            simpa using hval, by simpa using hne⟩
          rw [hc]
          congr 1
          omega
    · rw [if_neg hv]
      rw [ih row (c + 1) t]
      have hv0 : v = 0 := by omega
      constructor
      · rintro ⟨j, hj, hr, hc, hval, hne⟩
        refine ⟨j + 1, by simpa using hj, hr, ?_, by simpa using hval,
          by simpa using hne⟩
        rw [hc]
        congr 1
        omega
      · rintro ⟨j, hj, hr, hc, hval, hne⟩
        cases j with
        | zero =>
          exfalso
          apply hne
          simpa using hv0
        | succ j' =>
          refine ⟨j', by simpa using hj, hr, ?_, by simpa using hval, by
            simpa using hne⟩
          rw [hc]
          congr 1
          omega

theorem denseRowNonzeros_cols_pairwise (coeffs : List Int) :
    ∀ (row : Int) (c : Nat),
      (denseRowNonzeros row c coeffs).Pairwise (fun s t => s.Col < t.Col) := by
  induction coeffs with
  | nil => intro row c; simp [denseRowNonzeros]
  | cons v rest ih =>
    intro row c
    unfold denseRowNonzeros
    by_cases hv : v ≠ 0
    · rw [if_pos hv]
      refine List.pairwise_cons.mpr ⟨?_, ih row (c + 1)⟩
      intro t ht
      obtain ⟨j, hj, _, hc, -⟩ := (denseRowNonzeros_mem rest row (c + 1) t).mp ht
      rw [hc]
      simp only
      omega
    · rw [if_neg hv]
      exact ih row (c + 1)

/-- Claim C9: `AddDenseRow` appends exactly one lower and one upper row bound,
appends one constraint-matrix triple `(r, i, coeffs[i])` for every position
`i` with a non-zero coefficient (where `r` is the pre-call length of
`RowLower`), appends nothing for zero coefficients, and leaves every other
field of the model unchanged. -/
theorem addDenseRow_effect (m : Model) (lower : Int) (coeffs : List Int)
    (upper : Int) :
    (m.AddDenseRow lower coeffs upper).RowLower = m.RowLower ++ [lower] ∧
    (m.AddDenseRow lower coeffs upper).RowUpper = m.RowUpper ++ [upper] ∧
    (∃ ts, (m.AddDenseRow lower coeffs upper).ConstMatrix =
        m.ConstMatrix ++ ts ∧
      (∀ (j : Nat) (v : Int),
        ((⟨(m.RowLower.length : Int), (j : Int), v⟩ : Nonzero) ∈ ts ↔
          ∃ hj : j < coeffs.length, coeffs.get ⟨j, hj⟩ = v ∧ v ≠ 0)) ∧
      (∀ t ∈ ts, t.Row = (m.RowLower.length : Int)) ∧
      (ts.map (·.Col)).Nodup) ∧
    (m.AddDenseRow lower coeffs upper).Maximize = m.Maximize ∧
    (m.AddDenseRow lower coeffs upper).Offset = m.Offset ∧
    (m.AddDenseRow lower coeffs upper).ColCosts = m.ColCosts ∧
    (m.AddDenseRow lower coeffs upper).ColLower = m.ColLower ∧
    (m.AddDenseRow lower coeffs upper).ColUpper = m.ColUpper ∧
    (m.AddDenseRow lower coeffs upper).Hessian = m.Hessian ∧
    (m.AddDenseRow lower coeffs upper).VarTypes = m.VarTypes := by
  refine ⟨rfl, rfl, ?_, rfl, rfl, rfl, rfl, rfl, rfl, rfl⟩
  refine ⟨denseRowNonzeros (m.RowLower.length : Int) 0 coeffs, rfl, ?_, ?_, ?_⟩
  · intro j v
    rw [denseRowNonzeros_mem coeffs (m.RowLower.length : Int) 0]
    constructor
    · rintro ⟨j', hj', hr, hc, hval, hne⟩
      simp only at hr hc hval
      have hjj : j' = j := by omega
      subst hjj
      exact ⟨hj', hval.symm, fun hv => hne (hval ▸ hv)⟩
    · rintro ⟨hj, hval, hne⟩
      exact ⟨j, hj, rfl, by simp, hval.symm, hval.symm ▸ hne⟩
  · intro t ht
    obtain ⟨j, hj, hr, -⟩ :=
      (denseRowNonzeros_mem coeffs (m.RowLower.length : Int) 0 t).mp ht
    exact hr
  · have hp := denseRowNonzeros_cols_pairwise coeffs (m.RowLower.length : Int) 0
    have hp2 : ((denseRowNonzeros (m.RowLower.length : Int) 0 coeffs).map
        (fun t : Nonzero => t.Col)).Pairwise (· < ·) :=
      hp.map (fun t : Nonzero => t.Col) (fun a b hab => hab)
    exact hp2.imp (fun hab => ne_of_lt hab)

/-- Witness for C9 at a concrete model and coefficient vector. -/
theorem addDenseRow_effect_witness :
    (Model.AddDenseRow ⟨false, 0, [], [], [], [], [], [], [], []⟩
        1 [1, 0, 2] 5).RowLower = [] ++ [1] ∧
    (Model.AddDenseRow ⟨false, 0, [], [], [], [], [], [], [], []⟩
        1 [1, 0, 2] 5).RowUpper = [] ++ [5] :=
  ⟨(addDenseRow_effect ⟨false, 0, [], [], [], [], [], [], [], []⟩
      1 [1, 0, 2] 5).1,
   (addDenseRow_effect ⟨false, 0, [], [], [], [], [], [], [], []⟩
      1 [1, 0, 2] 5).2.1⟩

/-- Claim C10: `Solution.Value` returns `ColValues[index]` for every
in-range index, and `0` for every out-of-range index (negative or too
large), never failing. -/
theorem solution_value_spec (s : Solution) :
    (∀ (i : Nat) (hi : i < s.ColValues.length),
      s.Value (i : Int) = s.ColValues.get ⟨i, hi⟩) ∧
    (∀ index : Int, index < 0 ∨ (s.ColValues.length : Int) ≤ index →
      s.Value index = 0) := by
  constructor
  · intro i hi
    unfold Solution.Value
    rw [dif_neg (by push_neg; constructor <;> omega)]
    have hti : ((i : Int)).toNat = i := by simp
    simp only [List.get_eq_getElem, hti]
  · intro index hidx
    unfold Solution.Value
    rw [dif_pos hidx]

/-- Witness for C10: an in-range, a negative and a too-large index on a
concrete solution. -/
theorem solution_value_spec_witness :
    (Solution.mk 7 [5, 9] [] [] [] [] [] 0).Value 1 = 9 ∧
    (Solution.mk 7 [5, 9] [] [] [] [] [] 0).Value (-1) = 0 ∧
    (Solution.mk 7 [5, 9] [] [] [] [] [] 0).Value 2 = 0 := by
  refine ⟨?_, ?_, ?_⟩
  · have h := (solution_value_spec ⟨7, [5, 9], [], [], [], [], [], 0⟩).1 1
      (by decide)
    simpa using h
  · exact (solution_value_spec _).2 (-1) (by decide)
  · exact (solution_value_spec _).2 2 (by decide)

end GoHighs
